import Mathlib

/-!
Shallow embedding of the `graphutils` package (files `utils.py`, `graph_io.py`,
`graph_stats.py`) and proofs of the specification claims about it.

Conventions of the embedding:
* Python floats on the code paths we verify carry exact rational values, so they
  are modelled by `ℚ`; vertex ids and labels by `ℕ`.
* Python strings are modelled by `List Char`.
* A NumPy `ndarray` is modelled by its shape together with its C-order flat
  data (`NDArray`); `np.reshape` is then literally a change of shape.
* Boolean-mask indexing `a[mask]` is `maskFilter`; `a[~mask]` negates the mask.
* Mutable module/object state (`KEYWORDS`, `self.graphs`, …) is threaded
  explicitly: stateful functions take the state and return the new state.
-/

namespace Graphutils

/-- Sub-string test on `List Char`: does `hay` start with `pre`?
Models Python `str.startswith`. -/
def isPre : List Char → List Char → Bool
  | [], _ => true
  | _ :: _, [] => false
  | a :: as, b :: bs => a == b && isPre as bs

/-- Does `hay` contain `sub` as a contiguous substring?
Models Python `sub in hay`. -/
def containsSub (sub hay : List Char) : Bool :=
  (List.range (hay.length + 1)).any (fun i => isPre sub (hay.drop i))

/-- Models Python `str.lower` (per-character lowering). -/
def lowerStr (s : List Char) : List Char := s.map Char.toLower

/-- The final path component: everything after the last slash.
Models `pathlib.Path(filename).name`. -/
def pathNameOf (f : List Char) : List Char :=
  ((f.foldl (fun acc c => if c = '/' then [] else acc ++ [c]) []))

/-- Index of the last dot of a name, if any. -/
def lastDotIdx (name : List Char) : Option ℕ :=
  ((name.enum.filter (fun p => p.2 == '.')).map (fun p => p.1)).getLast?

/-- Models `pathlib.Path(filename).suffix`: the extension of the final
component, dot included; empty when the last dot is the first character or the
final character, or when there is no dot. -/
def pathSuffixOf (f : List Char) : List Char :=
  let name := pathNameOf f
  match lastDotIdx name with
  | some i => if 0 < i ∧ i + 1 < name.length then name.drop i else []
  | none => []

/-- The initial value of the module-level mutable list
`KEYWORDS = ["sub", "ses"]` in `graphutils/utils.py`. -/
def KEYWORDS : List (List Char) := [['s', 'u', 'b'], ['s', 'e', 's']]

/-- Models `utils.is_graph(filename, atlas, suffix)`, with the module-level mutable
`KEYWORDS` list threaded explicitly: the function receives the current list and
returns the boolean result together with the list it leaves behind.  Mirrors
the source line by line: a truthy `atlas` is lowered and appended to
`KEYWORDS`; a truthy `suffix` not starting with a dot gets a dot prepended;
the result is `Path(filename).suffix == suffix and all(i in str(filename) for
i in KEYWORDS)`. -/
def is_graph (keywords : List (List Char)) (filename atlas sfx : List Char) :
    Bool × List (List Char) :=
  let kw := if atlas.isEmpty then keywords else keywords ++ [lowerStr atlas]
  let sfx2 := if !sfx.isEmpty && !isPre ['.'] sfx then '.' :: sfx else sfx
  let correct_suffix := pathSuffixOf filename == sfx2
  let correct_filename := kw.all (fun k => containsSub k filename)
  (correct_suffix && correct_filename, kw)

/-- Models `utils.filter_graph_files(file_list, atlas, suffix)` on its generator path
(`return_bool=False`): yields the filenames accepted by `is_graph`, threading
the mutable `KEYWORDS` state through the successive `is_graph` calls. -/
def filter_graph_files (keywords : List (List Char)) (files : List (List Char))
    (atlas sfx : List Char) : List (List Char) × List (List Char) :=
  match files with
  | [] => ([], keywords)
  | f :: rest =>
    let r := is_graph keywords f atlas sfx
    let rec_ := filter_graph_files r.2 rest atlas sfx
    (if r.1 then f :: rec_.1 else rec_.1, rec_.2)

/-! ## Vertex aligner (`graph_io.NdmgGraphs._vertices`) -/

/-- A parsed edge list: ordered `(u, v, weight)` triples. -/
abbrev EdgeList := List (ℕ × ℕ × ℚ)

/-- The node list of the `networkx` graph read from one edge list:
the endpoints in order of first appearance, without duplicates
(`nx.read_weighted_edgelist` inserts `u` then `v` for each line, and a graph
stores each node once). -/
def nxNodes (g : EdgeList) : List ℕ :=
  (g.flatMap (fun e => [e.1, e.2.1])).dedup

/-- Models `np.sort` on a 1-D integer array: the same elements in ascending order. -/
def npSort (l : List ℕ) : List ℕ := List.insertionSort (· ≤ ·) l

/-- Models `np.union1d(a, b)`: the sorted duplicate-free union of two 1-D arrays. -/
def union1d (a b : List ℕ) : List ℕ := npSort (a ++ b).dedup

/-- Models `functools.reduce(np.union1d, ls)`; on a one-element list `reduce` returns
the element itself without calling the function (and it raises on an empty
list, which we map to `[]`). -/
def reduceUnion : List (List ℕ) → List ℕ
  | [] => []
  | x :: xs => xs.foldl union1d x

/-- Models `NdmgGraphs._vertices`: `np.sort(reduce(np.union1d, [G.nodes for G in
self.nx_graphs]))`. -/
def vertices (gs : List EdgeList) : List ℕ :=
  npSort (reduceUnion (gs.map nxNodes))

/-! ## Feature matrix builder (`graph_stats.NdmgStats._X`) -/

/-- A NumPy `ndarray`: shape plus C-order flat data. -/
structure NDArray where
  shape : List ℕ
  data : List ℚ
  deriving Repr, DecidableEq

/-- Models `NdmgStats._X(graphs)`: if `graphs.ndim == 3` with shape `(n, v1, v2)`,
return `np.reshape(graphs, (n, v1 * v2))` — same C-order data, new shape;
otherwise, if `len(self.files) == 1`, return `graphs` unchanged (after a
warning); otherwise raise `ValueError("Dimensionality of input must be 3.")`. -/
def _X (filesLen : ℕ) (g : NDArray) : Except (List Char) NDArray :=
  match g.shape with
  | [n, v1, v2] => Except.ok ⟨[n, v1 * v2], g.data⟩
  | _ =>
    if filesLen = 1 then Except.ok g
    else Except.error (("Dimensionality of input must be 3.").toList)

/-- Row `i` of a 2-D `NDArray`. -/
def NDArray.row (a : NDArray) (i : ℕ) : List ℚ :=
  match a.shape with
  | [_, m] => (a.data.drop (i * m)).take m
  | _ => []

/-- Matrix `i` of a 3-D `NDArray`, as a list of its rows. -/
def NDArray.mat (a : NDArray) (i : ℕ) : List (List ℚ) :=
  match a.shape with
  | [_, v1, v2] =>
    (List.range v1).map (fun r => (a.data.drop (i * (v1 * v2) + r * v2)).take v2)
  | _ => []

/-- Models `np.reshape(row, (v1, v2))` of a flat row: the list of its `v1`
consecutive chunks of length `v2`. -/
def reshape2 (v1 v2 : ℕ) (row : List ℚ) : List (List ℚ) :=
  (List.range v1).map (fun r => (row.drop (r * v2)).take v2)

/-! ## Discriminability engine (`utils.discr_stat`, `utils._discr_rdf`) -/

/-- Boolean-mask indexing `xs[mask]` of NumPy: keep the entries whose mask
position is `True` (positions beyond either length contribute nothing; in the
verified code paths the lengths always agree). -/
def maskFilter {α : Type} (xs : List α) (m : List Bool) : List α :=
  ((xs.zip m).filter (fun p => p.2)).map (fun p => p.1)

/-- Models `(arr < d).sum()`: how many entries of `arr` are strictly below `d`. -/
def countLt (l : List ℚ) (d : ℚ) : ℕ := l.countP (fun x => decide (x < d))

/-- Models `(arr == d).sum()`: how many entries of `arr` equal `d`. -/
def countEq (l : List ℚ) (d : ℚ) : ℕ := l.countP (fun x => decide (x = d))

/-- One rdf entry: `1 - ((Dij < d).sum() + 0.5 * (Dij == d).sum()) / Dij.size`
(line 151 of `utils.py`). -/
def rdfVal (dij : List ℚ) (d : ℚ) : ℚ :=
  1 - ((countLt dij d : ℚ) + (1 / 2) * (countEq dij d : ℚ)) / (dij.length : ℚ)

/-- The body of the loop of `_discr_rdf` for sample `i` with label `lab` and
distance row `di`: build the boolean mask `idx = labels == label`, take
`Dij = di[~idx]`, then destructively set `idx[i] = False` and take
`Dii = di[idx]`; return the list comprehension of rdf values over `Dii`. -/
def discrRdfRow (di : List ℚ) (labels : List ℕ) (i : ℕ) (lab : ℕ) : List ℚ :=
  let idx : List Bool := labels.map (fun l => l == lab)
  let dij := maskFilter di (idx.map (fun b => !b))
  let idx2 := idx.set i false
  let dii := maskFilter di idx2
  dii.map (rdfVal dij)

/-- Models `_discr_rdf(dissimilarities, labels)` before padding: the ragged list of
rdf rows, one per `for i, label in enumerate(labels)` iteration, where row `i`
reads `di = dissimilarities[i]`. -/
def discrRdfRows (D : List (List ℚ)) (labels : List ℕ) : List (List ℚ) :=
  (D.zip labels).enum.map (fun p => discrRdfRow p.2.1 labels p.1 p.2.2)

/-- The padding step of `_discr_rdf`: `out = np.full((len(rdfs),
max(map(len, rdfs))), np.nan)` then `out[i, :len(rdf)] = rdf`.  `np.nan` is
modelled by `none`, a real entry by `some`. -/
def padRows (rows : List (List ℚ)) : List (List (Option ℚ)) :=
  let m := (rows.map List.length).foldr max 0
  rows.map (fun r => r.map some ++ List.replicate (m - r.length) none)

/-- Models `np.nanmean`: the arithmetic mean of the non-`NaN` entries. -/
def nanmean (t : List (List (Option ℚ))) : ℚ :=
  let vals := t.flatten.filterMap id
  vals.sum / (vals.length : ℚ)

/-- Number of distinct labels of `Y` occurring more than once:
`(counts != 1).sum()` for `uniques, counts = np.unique(Y, return_counts=True)`
(each count is at least 1, so `count != 1` is `2 ≤ count`). -/
def numRepeatedLabels (Y : List ℕ) : ℕ :=
  (Y.dedup.filter (fun l => decide (2 ≤ Y.count l))).length

/-- The row-keep mask `idx = np.isin(Y, uniques[counts != 1])`. -/
def keepMask (Y : List ℕ) : List Bool :=
  Y.map (fun l => decide (2 ≤ Y.count l))

/-- The labels retained after the optional isolate removal:
`labels = Y[idx]` when `remove_isolates`, else `Y`. -/
def retainedLabels (ri : Bool) (Y : List ℕ) : List ℕ :=
  if ri then maskFilter Y (keepMask Y) else Y

/-- The data retained after the optional isolate removal: rows only
(`X = X[idx]`) on the euclidean path, rows and columns
(`X = X[np.ix_(idx, idx)]`) on the precomputed path. -/
def retainedX (euclid ri : Bool) (X : List (List ℚ)) (Y : List ℕ) :
    List (List ℚ) :=
  if ri then
    if euclid then maskFilter X (keepMask Y)
    else (maskFilter X (keepMask Y)).map (fun row => maskFilter row (keepMask Y))
  else X

/-- The dissimilarity matrix used by `discr_stat`: `euclidean_distances(X)` on
the euclidean path — the external sklearn function is the parameter `distf` —
or the (filtered) input itself on the precomputed path. -/
def dmatrix (distf : List (List ℚ) → List (List ℚ)) (euclid ri : Bool)
    (X : List (List ℚ)) (Y : List ℕ) : List (List ℚ) :=
  if euclid then distf (retainedX euclid ri X Y) else retainedX euclid ri X Y

/-- Models `utils.discr_stat(X, Y, dissimilarity, remove_isolates)`; `euclid = true`
means `dissimilarity == "euclidean"`, and `distf` stands for sklearn's
`euclidean_distances`.  Raises (returns `Except.error`) exactly when
`(counts != 1).sum() <= 1`; otherwise returns `np.nanmean(_discr_rdf(...))`. -/
def discr_stat (distf : List (List ℚ) → List (List ℚ)) (euclid : Bool)
    (X : List (List ℚ)) (Y : List ℕ) (ri : Bool) : Except (List Char) ℚ :=
  if numRepeatedLabels Y ≤ 1 then
    Except.error
      (("You have passed a vector containing only a single unique sample id.").toList)
  else
    Except.ok
      (nanmean (padRows (discrRdfRows (dmatrix distf euclid ri X Y)
        (retainedLabels ri Y))))

/-- Tests whether an `Except` value is the raising outcome. -/
def isErr {ε α : Type} : Except ε α → Bool
  | Except.error _ => true
  | Except.ok _ => false

/-! Spec-side characterization of step 3 of the engine (used to compare the
mask-based source computation with the spec's wording): `Dij` is the list of
distances of row `di` at the positions whose label differs from `lab`, and
`Dii` the list at the positions other than `i` whose label equals `lab`. -/

/-- The spec's `Dij`: distances to samples of a different label. -/
def specDij (di : List ℚ) (labels : List ℕ) (lab : ℕ) : List ℚ :=
  ((di.zip labels).filter (fun p => !(p.2 == lab))).map (fun p => p.1)

/-- The spec's `Dii`: distances to the other samples sharing label `lab`,
position `i` itself excluded. -/
def specDii (di : List ℚ) (labels : List ℕ) (lab : ℕ) (i : ℕ) : List ℚ :=
  (((di.zip labels).enum.filter (fun p => p.2.2 == lab && !(p.1 == i))).map
    (fun p => p.2.1))

/-! ## Heap model for the frame claims

NumPy arrays live on a heap of cells; `np.copy`, fancy indexing, arithmetic,
`euclidean_distances` and `np.array` allocate fresh cells, and rebinding a
Python local points it at a new cell without touching the old one.  The claims
about absence of mutation become: no reachable cell existing before the call
is altered by it. -/

/-- A heap value: a 3-D tensor, a 2-D matrix, or a label vector. -/
inductive Val where
  | tensor : List (List (List ℚ)) → Val
  | matrix : List (List ℚ) → Val
  | labels : List ℕ → Val
  deriving DecidableEq

/-- A heap: cells addressed by their index. -/
structure Heap where
  cells : List Val
  deriving DecidableEq

/-- Allocate a fresh cell, returning the new heap and the new address. -/
def Heap.alloc (h : Heap) (v : Val) : Heap × ℕ :=
  (⟨h.cells ++ [v]⟩, h.cells.length)

/-- Read the cell at address `r`. -/
def Heap.read (h : Heap) (r : ℕ) : Option Val := h.cells[r]?

/-- The field references of an `NdmgStats` object: `self.graphs`, `self.X`,
`self.Y` each point at a heap cell. -/
structure Obj where
  graphsRef : ℕ
  XRef : ℕ
  YRef : ℕ

/-- Heap-level `discr_stat(X, Y)`: reads the argument arrays, and mirrors the
allocations the body performs — the rebinding `X = X[...]` makes the local
name point at a freshly allocated filtered array, and
`euclidean_distances(X)` (or the pass-through) is again a fresh array.  No
statement of the body writes into an existing cell. -/
def discr_statH (distf : List (List ℚ) → List (List ℚ)) (euclid : Bool)
    (h : Heap) (xr yr : ℕ) (ri : Bool) : Except (List Char) ℚ × Heap :=
  match h.read xr, h.read yr with
  | some (Val.matrix X), some (Val.labels Y) =>
    if numRepeatedLabels Y ≤ 1 then
      (Except.error
        (("You have passed a vector containing only a single unique sample id.").toList), h)
    else
      let h1 := (h.alloc (Val.matrix (retainedX euclid ri X Y))).1
      let h2 := (h1.alloc (Val.matrix (dmatrix distf euclid ri X Y))).1
      (Except.ok (nanmean (padRows (discrRdfRows (dmatrix distf euclid ri X Y)
        (retainedLabels ri Y)))), h2)
  | _, _ => (Except.error (("bad reference").toList), h)

/-- Heap-level `NdmgStats.discriminability(PTR)`.  With `PTR=True` the body is
`graphs = np.copy(self.graphs)` (fresh cell), `graphs = np.array([...])`
(fresh cell holding the per-graph `pass_to_ranks` images — `ptr` stands for
the external graspy function), `X = self._X(graphs)` (the ndim-3 reshape:
each matrix flattened row-major, a fresh cell), then `discr_stat(X, self.Y)`;
with `PTR=False` it is `discr_stat(self.X, self.Y)` directly. -/
def discriminability (ptr : List (List ℚ) → List (List ℚ))
    (distf : List (List ℚ) → List (List ℚ)) (h : Heap) (o : Obj) (PTR : Bool) :
    Except (List Char) ℚ × Heap :=
  if PTR then
    match h.read o.graphsRef with
    | some (Val.tensor g) =>
      let a1 := h.alloc (Val.tensor g)
      let gnorm := g.map ptr
      let a2 := a1.1.alloc (Val.tensor gnorm)
      let X := gnorm.map List.flatten
      let a3 := a2.1.alloc (Val.matrix X)
      discr_statH distf true a3.1 a3.2 o.YRef true
    | _ => (Except.error (("bad reference").toList), h)
  else
    discr_statH distf true h o.XRef o.YRef true

/-! ## Helper lemmas -/

theorem flatten_chunks (l : List ℚ) (v1 v2 : ℕ) (h : v1 * v2 ≤ l.length) :
    ((List.range v1).map (fun r => (l.drop (r * v2)).take v2)).flatten =
      l.take (v1 * v2) := by
  induction v1 generalizing l with
  | zero => simp
  | succ n ih =>
    rw [List.range_succ_eq_map, List.map_cons, List.map_map, List.flatten_cons]
    have hcomp :
        ((fun r => (l.drop (r * v2)).take v2) ∘ Nat.succ) =
          (fun r => ((l.drop v2).drop (r * v2)).take v2) := by
      funext r
      rw [Function.comp_apply, List.drop_drop, Nat.succ_mul,
        Nat.add_comm (r * v2) v2]
    rw [hcomp, ih (l.drop v2) (by
      have hmul : (n + 1) * v2 = n * v2 + v2 := by ring
      simp only [List.length_drop]
      omega)]
    simp only [Nat.zero_mul, List.drop_zero]
    rw [← List.take_add]
    congr 1
    ring


theorem filterMap_pad (r : List ℚ) (k : ℕ) :
    (r.map some ++ List.replicate k none).filterMap id = r := by
  rw [List.filterMap_append, List.filterMap_map]
  have h1 : (List.filterMap (id ∘ some) r) = r := List.filterMap_some r
  have h2 : (List.filterMap id (List.replicate k (none : Option ℚ))) = [] := by
    induction k with
    | zero => rfl
    | succ n ih => simp [List.replicate_succ, List.filterMap_cons, ih]
  rw [h1, h2, List.append_nil]

theorem filterMap_padRows (rows : List (List ℚ)) (m : ℕ) :
    ((rows.map (fun r => r.map some ++ List.replicate (m - r.length) none)).flatten).filterMap id =
      rows.flatten := by
  induction rows with
  | nil => rfl
  | cons r t ih =>
    rw [List.map_cons, List.flatten_cons, List.filterMap_append, filterMap_pad, ih,
      List.flatten_cons]

theorem nanmean_padRows (rows : List (List ℚ)) :
    nanmean (padRows rows) = rows.flatten.sum / (rows.flatten.length : ℚ) := by
  show ((padRows rows).flatten.filterMap id).sum /
      (((padRows rows).flatten.filterMap id).length : ℚ) = _
  rw [show padRows rows =
    rows.map (fun r => r.map some ++
      List.replicate (((rows.map List.length).foldr max 0) - r.length) none) from rfl]
  rw [filterMap_padRows]

theorem mem_npSort {l : List ℕ} {x : ℕ} : x ∈ npSort l ↔ x ∈ l :=
  (List.perm_insertionSort _ l).mem_iff

theorem nodup_npSort {l : List ℕ} (h : l.Nodup) : (npSort l).Nodup :=
  ((List.perm_insertionSort _ l).nodup_iff).mpr h

theorem sorted_npSort (l : List ℕ) : (npSort l).Sorted (· ≤ ·) :=
  List.sorted_insertionSort _ l

theorem mem_union1d {a b : List ℕ} {x : ℕ} :
    x ∈ union1d a b ↔ x ∈ a ∨ x ∈ b := by
  unfold union1d
  rw [mem_npSort, List.mem_dedup, List.mem_append]

theorem nodup_union1d (a b : List ℕ) : (union1d a b).Nodup :=
  nodup_npSort (List.nodup_dedup _)

theorem mem_foldl_union (ls : List (List ℕ)) (init : List ℕ) (x : ℕ) :
    x ∈ ls.foldl union1d init ↔ x ∈ init ∨ ∃ l ∈ ls, x ∈ l := by
  induction ls generalizing init with
  | nil => simp
  | cons hd tl ih =>
    rw [List.foldl_cons, ih, mem_union1d]
    simp only [List.mem_cons]
    constructor
    · rintro ((h | h) | ⟨l, hl, hx⟩)
      · exact Or.inl h
      · exact Or.inr ⟨hd, Or.inl rfl, h⟩
      · exact Or.inr ⟨l, Or.inr hl, hx⟩
    · rintro (h | ⟨l, (rfl | hl), hx⟩)
      · exact Or.inl (Or.inl h)
      · exact Or.inl (Or.inr hx)
      · exact Or.inr ⟨l, hl, hx⟩

theorem nodup_foldl_union (ls : List (List ℕ)) (init : List ℕ)
    (h : init.Nodup) : (ls.foldl union1d init).Nodup := by
  induction ls generalizing init with
  | nil => exact h
  | cons hd tl ih => exact ih _ (nodup_union1d _ _)

theorem nodup_reduceUnion (ls : List (List ℕ)) (h : ∀ l ∈ ls, l.Nodup) :
    (reduceUnion ls).Nodup := by
  cases ls with
  | nil => exact List.nodup_nil
  | cons hd tl => exact nodup_foldl_union tl hd (h hd (List.mem_cons_self hd tl))

theorem nodup_vertices (gs : List EdgeList) : (vertices gs).Nodup := by
  unfold vertices
  exact nodup_npSort (nodup_reduceUnion _
    (by intro l hl
        obtain ⟨g, _, rfl⟩ := List.mem_map.mp hl
        exact List.nodup_dedup _))

theorem sorted_le_vertices (gs : List EdgeList) :
    (vertices gs).Sorted (· ≤ ·) := sorted_npSort _

theorem mem_nxNodes {g : EdgeList} {x : ℕ} :
    x ∈ nxNodes g ↔ ∃ e ∈ g, x = e.1 ∨ x = e.2.1 := by
  unfold nxNodes
  rw [List.mem_dedup, List.mem_flatMap]
  constructor
  · rintro ⟨e, he, hx⟩
    rcases List.mem_cons.mp hx with h | h
    · exact ⟨e, he, Or.inl h⟩
    · simp only [List.mem_singleton] at h
      exact ⟨e, he, Or.inr h⟩
  · rintro ⟨e, he, (rfl | rfl)⟩
    · exact ⟨e, he, List.mem_cons_self _ _⟩
    · exact ⟨e, he, List.mem_cons.mpr (Or.inr (List.mem_singleton.mpr rfl))⟩

theorem mem_vertices {gs : List EdgeList} {x : ℕ} :
    x ∈ vertices gs ↔ ∃ g ∈ gs, x ∈ nxNodes g := by
  unfold vertices
  rw [mem_npSort]
  cases gs with
  | nil => simp [reduceUnion]
  | cons g tl =>
    show x ∈ reduceUnion (nxNodes g :: tl.map nxNodes) ↔ _
    unfold reduceUnion
    rw [mem_foldl_union]
    simp only [List.mem_map, List.mem_cons]
    constructor
    · rintro (h | ⟨l, ⟨g2, hg2, rfl⟩, hx⟩)
      · exact ⟨g, Or.inl rfl, h⟩
      · exact ⟨g2, Or.inr hg2, hx⟩
    · rintro ⟨g2, (rfl | hg2), hx⟩
      · exact Or.inl hx
      · exact Or.inr ⟨nxNodes g2, ⟨g2, hg2, rfl⟩, hx⟩

/-- Largest entry of a 1-D nonnegative-integer array (0 when empty). -/
def listMax (l : List ℕ) : ℕ := l.foldr max 0

theorem le_listMax_of_mem {l : List ℕ} {x : ℕ} (h : x ∈ l) : x ≤ listMax l := by
  induction l with
  | nil => cases h
  | cons hd tl ih =>
    rcases List.mem_cons.mp h with rfl | h2
    · exact le_max_left _ _
    · exact le_trans (ih h2) (le_max_right _ _)

theorem listMax_le_listMax {a b : List ℕ} (h : ∀ x ∈ a, x ∈ b) :
    listMax a ≤ listMax b := by
  induction a with
  | nil => exact Nat.zero_le _
  | cons hd tl ih =>
    show max hd (listMax tl) ≤ _
    exact max_le (le_listMax_of_mem (h hd (List.mem_cons_self _ _)))
      (ih (fun x hx => h x (List.mem_cons_of_mem _ hx)))

theorem maskFilter_nil {α : Type} (m : List Bool) :
    maskFilter ([] : List α) m = [] := by
  simp [maskFilter]

theorem maskFilter_nil_mask {α : Type} (xs : List α) :
    maskFilter xs ([] : List Bool) = [] := by
  simp [maskFilter]

theorem maskFilter_cons {α : Type} (x : α) (xs : List α) (b : Bool)
    (m : List Bool) :
    maskFilter (x :: xs) (b :: m) =
      (if b then [x] else []) ++ maskFilter xs m := by
  cases b <;> simp [maskFilter, List.zip_cons_cons, List.filter_cons]

theorem maskFilter_pos_eq (ds : List ℚ) (ls : List ℕ) (lab : ℕ) :
    maskFilter ds (ls.map (fun l => l == lab)) =
      ((ds.zip ls).filter (fun p => p.2 == lab)).map (fun p => p.1) := by
  induction ds generalizing ls with
  | nil => simp [maskFilter]
  | cons d ds ih =>
    cases ls with
    | nil => simp [maskFilter]
    | cons l ls =>
      rw [List.map_cons, maskFilter_cons, List.zip_cons_cons, List.filter_cons]
      cases hl : (l == lab) <;> simp [hl, ih ls]

theorem maskFilter_neg_eq_specDij (ds : List ℚ) (ls : List ℕ) (lab : ℕ) :
    maskFilter ds ((ls.map (fun l => l == lab)).map (fun b => !b)) =
      specDij ds ls lab := by
  unfold specDij
  rw [List.map_map]
  induction ds generalizing ls with
  | nil => simp [maskFilter]
  | cons d ds ih =>
    cases ls with
    | nil => simp [maskFilter]
    | cons l ls =>
      rw [List.map_cons, maskFilter_cons, List.zip_cons_cons, List.filter_cons]
      cases hl : (l == lab) <;> simp [hl, Function.comp, ih ls]

theorem filter_enumFrom_no_idx (xs : List (ℚ × ℕ)) (lab j m : ℕ) (h : j < m) :
    ((List.enumFrom m xs).filter (fun p => p.2.2 == lab && !(p.1 == j))).map
        (fun p => p.2.1) =
      ((xs.filter (fun p => p.2 == lab)).map (fun p => p.1)) := by
  induction xs generalizing m with
  | nil => rfl
  | cons x t ih =>
    rw [List.enumFrom_cons, List.filter_cons, List.filter_cons]
    have hm : (m == j) = false := by
      simp only [beq_eq_false_iff_ne, ne_eq]
      omega
    rw [hm]
    cases hx : (x.2 == lab) <;>
      simp [hx, ih (m + 1) (by omega)]

theorem maskFilter_set_eq_aux (ds : List ℚ) (ls : List ℕ) (lab i k : ℕ) :
    maskFilter ds ((ls.map (fun l => l == lab)).set i false) =
      ((List.enumFrom k (ds.zip ls)).filter
        (fun p => p.2.2 == lab && !(p.1 == i + k))).map (fun p => p.2.1) := by
  induction ds generalizing ls i k with
  | nil => simp [maskFilter]
  | cons d ds ih =>
    cases ls with
    | nil => simp [maskFilter]
    | cons l ls =>
      cases i with
      | zero =>
        rw [List.map_cons, List.set_cons_zero, maskFilter_cons,
          List.zip_cons_cons, List.enumFrom_cons, List.filter_cons]
        have hk : (k == 0 + k) = true := by
          simp only [beq_iff_eq]
          omega
        rw [hk]
        simp only [Bool.not_true, Bool.and_false, if_false, Bool.false_eq_true,
          if_neg, List.nil_append]
        rw [maskFilter_pos_eq,
          ← filter_enumFrom_no_idx (ds.zip ls) lab (0 + k) (k + 1) (by omega)]
      | succ i2 =>
        rw [List.map_cons, List.set_cons_succ, maskFilter_cons,
          List.zip_cons_cons, List.enumFrom_cons, List.filter_cons]
        have hk : (k == i2 + 1 + k) = false := by
          simp only [beq_eq_false_iff_ne, ne_eq]
          omega
        rw [hk]
        have hrec := ih ls i2 (k + 1)
        have hidx : i2 + (k + 1) = i2 + 1 + k := by omega
        rw [hidx] at hrec
        cases hl : (l == lab) <;> simp [hl, hrec]

theorem maskFilter_set_eq_specDii (ds : List ℚ) (ls : List ℕ) (lab i : ℕ) :
    maskFilter ds ((ls.map (fun l => l == lab)).set i false) =
      specDii ds ls lab i := by
  have h := maskFilter_set_eq_aux ds ls lab i 0
  unfold specDii
  rw [List.enum_eq_enumFrom]
  simpa using h

theorem discrRdfRow_eq_spec (di : List ℚ) (labels : List ℕ) (i lab : ℕ) :
    discrRdfRow di labels i lab =
      (specDii di labels lab i).map (rdfVal (specDij di labels lab)) := by
  show (maskFilter di ((labels.map (fun l => l == lab)).set i false)).map
      (rdfVal (maskFilter di ((labels.map (fun l => l == lab)).map (fun b => !b)))) = _
  rw [maskFilter_neg_eq_specDij, maskFilter_set_eq_specDii]

theorem discrRdfRows_length (D : List (List ℚ)) (labels : List ℕ)
    (hD : D.length = labels.length) :
    (discrRdfRows D labels).length = labels.length := by
  unfold discrRdfRows
  rw [List.length_map, List.enum_length, List.length_zip, hD]
  exact min_self _

theorem discrRdfRows_getD (D : List (List ℚ)) (labels : List ℕ) (i : ℕ)
    (hD : D.length = labels.length) (hi : i < labels.length) :
    (discrRdfRows D labels).getD i [] =
      discrRdfRow (D.getD i []) labels i (labels.getD i 0) := by
  have hiD : i < D.length := by omega
  have hrl := discrRdfRows_length D labels hD
  rw [List.getD_eq_getElem _ _ (by omega : i < (discrRdfRows D labels).length),
    List.getD_eq_getElem D [] hiD, List.getD_eq_getElem labels 0 hi]
  unfold discrRdfRows
  rw [List.getElem_map, List.getElem_enum, List.getElem_zip]

theorem countLt_add_countEq_le (l : List ℚ) (d : ℚ) :
    countLt l d + countEq l d ≤ l.length := by
  unfold countLt countEq
  induction l with
  | nil => simp
  | cons x t ih =>
    rw [List.countP_cons, List.countP_cons, List.length_cons]
    by_cases h1 : x < d
    · have h2 : ¬ (x = d) := ne_of_lt h1
      simp [h1, h2]
      omega
    · by_cases h2 : x = d
      · simp [h1, h2]
        omega
      · simp [h1, h2]
        omega

theorem rdfVal_bounds (dij : List ℚ) (d : ℚ) :
    0 ≤ rdfVal dij d ∧ rdfVal dij d ≤ 1 := by
  unfold rdfVal
  rcases Nat.eq_zero_or_pos dij.length with h0 | hpos
  · have hnil : dij = [] := List.length_eq_zero.mp h0
    subst hnil
    norm_num [countLt, countEq]
  · have hle := countLt_add_countEq_le dij d
    have hlen : (0 : ℚ) < (dij.length : ℚ) := by exact_mod_cast hpos
    have hcast : (countLt dij d : ℚ) + (countEq dij d : ℚ) ≤ (dij.length : ℚ) := by
      exact_mod_cast hle
    have hEq0 : (0 : ℚ) ≤ (countEq dij d : ℚ) := Nat.cast_nonneg _
    have hLt0 : (0 : ℚ) ≤ (countLt dij d : ℚ) := Nat.cast_nonneg _
    constructor
    · have hnum : (countLt dij d : ℚ) + (1 / 2) * (countEq dij d : ℚ) ≤
          (dij.length : ℚ) := by linarith
      have hdiv := (div_le_one hlen).mpr hnum
      linarith
    · have hnn : 0 ≤ ((countLt dij d : ℚ) + (1 / 2) * (countEq dij d : ℚ)) /
          (dij.length : ℚ) := by positivity
      linarith

theorem mean_bounds (l : List ℚ) (hne : l ≠ [])
    (hmem : ∀ x ∈ l, 0 ≤ x ∧ x ≤ 1) :
    0 ≤ l.sum / (l.length : ℚ) ∧ l.sum / (l.length : ℚ) ≤ 1 := by
  have hlen : (0 : ℚ) < (l.length : ℚ) := by
    have := List.length_pos.mpr hne
    exact_mod_cast this
  have hsum0 : 0 ≤ l.sum := List.sum_nonneg (fun x hx => (hmem x hx).1)
  have hsum1 : l.sum ≤ (l.length : ℚ) := by
    have h := List.sum_le_card_nsmul l 1 (fun x hx => (hmem x hx).2)
    rwa [nsmul_eq_mul, mul_one] at h
  exact ⟨div_nonneg hsum0 (le_of_lt hlen), (div_le_one hlen).mpr hsum1⟩

theorem mean_ones (l : List ℚ) (hne : l ≠ []) (hall : ∀ x ∈ l, x = 1) :
    l.sum / (l.length : ℚ) = 1 := by
  have hlen : (0 : ℚ) < (l.length : ℚ) := by
    have := List.length_pos.mpr hne
    exact_mod_cast this
  rw [List.sum_eq_card_nsmul l 1 hall, nsmul_eq_mul, mul_one]
  exact div_self (ne_of_gt hlen)

theorem maskFilter_map_self {α : Type} (xs : List α) (g : α → Bool) :
    maskFilter xs (xs.map g) = xs.filter g := by
  induction xs with
  | nil => rfl
  | cons x t ih =>
    rw [List.map_cons, maskFilter_cons, List.filter_cons]
    cases hg : g x <;> simp [ih]

theorem retainedLabels_eq_filter (Y : List ℕ) :
    retainedLabels true Y = Y.filter (fun l => decide (2 ≤ Y.count l)) := by
  unfold retainedLabels keepMask
  rw [if_pos rfl, maskFilter_map_self]

theorem exists_repeated_label (Y : List ℕ) (h : 2 ≤ numRepeatedLabels Y) :
    ∃ L, 2 ≤ Y.count L := by
  unfold numRepeatedLabels at h
  have hne : Y.dedup.filter (fun l => decide (2 ≤ Y.count l)) ≠ [] := by
    intro hnil
    rw [hnil] at h
    simp at h
  obtain ⟨L, hL⟩ := List.exists_mem_of_ne_nil _ hne
  exact ⟨L, by simpa using List.of_mem_filter hL⟩

theorem count_retained (Y : List ℕ) (L : ℕ) (hL : 2 ≤ Y.count L) :
    2 ≤ (retainedLabels true Y).count L := by
  rw [retainedLabels_eq_filter,
    List.count_filter (by simpa using hL)]
  exact hL

theorem two_le_count_exists_idx (l : List ℕ) (L : ℕ) (h : 2 ≤ l.count L) :
    ∃ i j, i < j ∧ j < l.length ∧ l.getD i 0 = L ∧ l.getD j 0 = L := by
  induction l with
  | nil => simp [List.count_nil] at h
  | cons x t ih =>
    by_cases hx : x = L
    · have hc : 1 ≤ t.count L := by
        rw [List.count_cons] at h
        simp only [hx, beq_self_eq_true, if_true] at h
        omega
      have hmem : L ∈ t := List.count_pos_iff.mp (by omega)
      obtain ⟨n, hn, hval⟩ := List.mem_iff_getElem.mp hmem
      refine ⟨0, n + 1, by omega, by simp only [List.length_cons]; omega, ?_, ?_⟩
      · simp [hx]
      · rw [List.getD_cons_succ, List.getD_eq_getElem t 0 hn]
        exact hval
    · have hc : 2 ≤ t.count L := by
        rw [List.count_cons] at h
        simp only [beq_iff_eq] at h
        rw [if_neg hx] at h
        omega
      obtain ⟨i, j, hij, hj, hgi, hgj⟩ := ih hc
      exact ⟨i + 1, j + 1, by omega, by simp only [List.length_cons]; omega,
        by rw [List.getD_cons_succ]; exact hgi,
        by rw [List.getD_cons_succ]; exact hgj⟩

theorem getD_mem_maskFilter {α : Type} (xs : List α) (d : α) (m : List Bool)
    (j : ℕ) (hj : j < xs.length) (hm : m.getD j false = true) :
    xs.getD j d ∈ maskFilter xs m := by
  induction xs generalizing m j with
  | nil => simp at hj
  | cons x t ih =>
    cases m with
    | nil => simp [List.getD] at hm
    | cons b mt =>
      cases j with
      | zero =>
        rw [List.getD_cons_zero] at hm ⊢
        subst hm
        simp [maskFilter_cons]
      | succ j2 =>
        rw [List.getD_cons_succ] at hm ⊢
        rw [maskFilter_cons]
        exact List.mem_append_right _
          (ih mt j2 (by simp only [List.length_cons] at hj; omega) hm)

theorem discrRdfRows_flatten_ne_nil (D : List (List ℚ)) (labels : List ℕ)
    (L : ℕ) (hD : D.length = labels.length)
    (hrows : ∀ row ∈ D, row.length = labels.length)
    (hcount : 2 ≤ labels.count L) :
    (discrRdfRows D labels).flatten ≠ [] := by
  obtain ⟨i, j, hij, hjlen, hgi, hgj⟩ := two_le_count_exists_idx labels L hcount
  have hi : i < labels.length := by omega
  have hiD : i < D.length := by omega
  have hdi_mem : D.getD i [] ∈ D := by
    rw [List.getD_eq_getElem D [] hiD]
    exact List.getElem_mem _
  have hdi_len : (D.getD i []).length = labels.length := hrows _ hdi_mem
  have hjlen2 : j <
      ((labels.map (fun l => l == labels.getD i 0)).set i false).length := by
    rw [List.length_set, List.length_map]
    omega
  have hmask : ((labels.map (fun l => l == labels.getD i 0)).set i false).getD j
      false = true := by
    rw [List.getD_eq_getElem _ _ hjlen2,
      List.getElem_set_ne (by omega : i ≠ j), List.getElem_map]
    have hjv : labels[j] = L := by
      rw [← List.getD_eq_getElem labels 0 (by omega : j < labels.length)]
      exact hgj
    rw [hjv, hgi]
    exact beq_self_eq_true L
  have helem := getD_mem_maskFilter (D.getD i []) 0
    ((labels.map (fun l => l == labels.getD i 0)).set i false) j
    (by omega : j < (D.getD i []).length) hmask
  have hdii_ne : maskFilter (D.getD i [])
      ((labels.map (fun l => l == labels.getD i 0)).set i false) ≠ [] := by
    intro hnil
    rw [hnil] at helem
    exact List.not_mem_nil _ helem
  intro hflat
  rw [List.flatten_eq_nil_iff] at hflat
  have hrow_mem : (discrRdfRows D labels).getD i [] ∈ discrRdfRows D labels := by
    rw [List.getD_eq_getElem _ _
      (by rw [discrRdfRows_length D labels hD]; omega :
        i < (discrRdfRows D labels).length)]
    exact List.getElem_mem _
  have hrow_nil := hflat _ hrow_mem
  rw [discrRdfRows_getD D labels i hD hi] at hrow_nil
  have hrow2 : discrRdfRow (D.getD i []) labels i (labels.getD i 0) =
      (maskFilter (D.getD i [])
        ((labels.map (fun l => l == labels.getD i 0)).set i false)).map
        (rdfVal (maskFilter (D.getD i [])
          ((labels.map (fun l => l == labels.getD i 0)).map (fun b => !b)))) := rfl
  rw [hrow2] at hrow_nil
  exact hdii_ne (List.map_eq_nil_iff.mp hrow_nil)

theorem mem_flatten_discrRdfRows (D : List (List ℚ)) (labels : List ℕ)
    (hD : D.length = labels.length) {x : ℚ}
    (hx : x ∈ (discrRdfRows D labels).flatten) :
    ∃ i, i < labels.length ∧ ∃ d,
      d ∈ specDii (D.getD i []) labels (labels.getD i 0) i ∧
      x = rdfVal (specDij (D.getD i []) labels (labels.getD i 0)) d := by
  rw [List.mem_flatten] at hx
  obtain ⟨row, hrow, hxr⟩ := hx
  obtain ⟨n, hn, hrow_eq⟩ := List.mem_iff_getElem.mp hrow
  have hlen := discrRdfRows_length D labels hD
  have hn2 : n < labels.length := by omega
  have hgetd : (discrRdfRows D labels).getD n [] = row := by
    rw [List.getD_eq_getElem _ _ hn]
    exact hrow_eq
  rw [discrRdfRows_getD D labels n hD hn2, discrRdfRow_eq_spec] at hgetd
  rw [← hgetd] at hxr
  obtain ⟨d, hd, hval⟩ := List.mem_map.mp hxr
  exact ⟨n, hn2, d, hd, hval.symm⟩

/-! ## Claim theorems -/

/-- C2 counterexample: the claim says the insufficient-data error is raised if
and only if every label of `Y` is unique.  For `Y = [0, 0, 1]` the label `0`
occurs twice (so `Y` is not duplicate-free), yet the code raises, because its
guard `(counts != 1).sum() <= 1` also fires when exactly one label repeats. -/
theorem claim_C2_counterexample :
    ¬ ((isErr (discr_stat id false [[0, 1, 2], [1, 0, 2], [2, 2, 0]] [0, 0, 1] true)
        = true) ↔ ([0, 0, 1] : List ℕ).Nodup) := by
  decide

/-- C2 (amended): `discr_stat` raises the insufficient-data `ValueError` if and
only if at most one label of `Y` occurs more than once; whenever at least two
labels occur more than once it returns a number. -/
theorem claim_C2_amended (distf : List (List ℚ) → List (List ℚ)) (euclid : Bool)
    (X : List (List ℚ)) (Y : List ℕ) (ri : Bool) :
    isErr (discr_stat distf euclid X Y ri) = true ↔ numRepeatedLabels Y ≤ 1 := by
  unfold discr_stat
  split <;> simp_all [isErr]

/-- C3: on every non-raising call, the statistic `discr_stat` returns is the
arithmetic mean of all real (non-padded) entries of the per-sample rdf table:
the rows are right-padded with NaN (`none`) to the longest row's length, the
mean is the NaN-ignoring `np.nanmean`, and the padding does not influence it —
the result is exactly (sum of all rdf values) / (number of all rdf values). -/
theorem claim_C3 (distf : List (List ℚ) → List (List ℚ)) (euclid : Bool)
    (X : List (List ℚ)) (Y : List ℕ) (ri : Bool)
    (h : 2 ≤ numRepeatedLabels Y) :
    discr_stat distf euclid X Y ri = Except.ok
      ((discrRdfRows (dmatrix distf euclid ri X Y) (retainedLabels ri Y)).flatten.sum /
        (((discrRdfRows (dmatrix distf euclid ri X Y) (retainedLabels ri Y)).flatten.length : ℚ))) := by
  unfold discr_stat
  rw [if_neg (by omega), nanmean_padRows]

theorem claim_C3_witness :
    discr_stat id false [[0, 1, 10, 10], [1, 0, 10, 10], [10, 10, 0, 1], [10, 10, 1, 0]]
      [0, 0, 1, 1] true = Except.ok
      ((discrRdfRows (dmatrix id false true
          [[0, 1, 10, 10], [1, 0, 10, 10], [10, 10, 0, 1], [10, 10, 1, 0]] [0, 0, 1, 1])
          (retainedLabels true [0, 0, 1, 1])).flatten.sum /
        (((discrRdfRows (dmatrix id false true
          [[0, 1, 10, 10], [1, 0, 10, 10], [10, 10, 0, 1], [10, 10, 1, 0]] [0, 0, 1, 1])
          (retainedLabels true [0, 0, 1, 1])).flatten.length : ℚ))) :=
  claim_C3 id false _ _ true (by decide)

/-- C5: on a 3-D tensor of shape `(n, v1, v2)`, `_X` returns an
`n × (v1·v2)` matrix whose row `i` is the row-major flattening of matrix `i`
(stacked in tensor order), and reshaping row `i` back to `(v1, v2)` recovers
matrix `i` exactly. -/
theorem claim_C5 (filesLen n v1 v2 i : ℕ) (g : NDArray)
    (hshape : g.shape = [n, v1, v2]) (hlen : g.data.length = n * v1 * v2)
    (hi : i < n) :
    ∃ X, _X filesLen g = Except.ok X ∧ X.shape = [n, v1 * v2] ∧
      X.row i = (g.mat i).flatten ∧ reshape2 v1 v2 (X.row i) = g.mat i := by
  obtain ⟨shape, data⟩ := g
  simp only at hshape hlen
  subst hshape
  have hr : NDArray.row ⟨[n, v1 * v2], data⟩ i =
      (data.drop (i * (v1 * v2))).take (v1 * v2) := rfl
  have hm : NDArray.mat ⟨[n, v1, v2], data⟩ i =
      (List.range v1).map
        (fun r => (data.drop (i * (v1 * v2) + r * v2)).take v2) := rfl
  refine ⟨⟨[n, v1 * v2], data⟩, rfl, rfl, ?_, ?_⟩
  · rw [hr, hm]
    have hfun : (fun r => (data.drop (i * (v1 * v2) + r * v2)).take v2) =
        (fun r => ((data.drop (i * (v1 * v2))).drop (r * v2)).take v2) := by
      funext r
      rw [List.drop_drop]
    rw [hfun, flatten_chunks]
    simp only [List.length_drop, hlen]
    have e1 : n * v1 * v2 = n * (v1 * v2) := by ring
    have e2 : (i + 1) * (v1 * v2) = i * (v1 * v2) + v1 * v2 := by ring
    have e3 : (i + 1) * (v1 * v2) ≤ n * (v1 * v2) :=
      Nat.mul_le_mul_right _ hi
    omega
  · rw [hr, hm]
    unfold reshape2
    apply List.map_congr_left
    intro r hrr
    have hrlt : r < v1 := List.mem_range.mp hrr
    have hle : v2 ≤ v1 * v2 - r * v2 := by
      have e2 : (r + 1) * v2 = r * v2 + v2 := by ring
      have e3 : (r + 1) * v2 ≤ v1 * v2 := Nat.mul_le_mul_right _ hrlt
      omega
    rw [List.drop_take, List.take_take, min_eq_left hle, List.drop_drop]

theorem claim_C5_witness :
    ∃ X, _X 2 ⟨[2, 2, 2], [1, 2, 3, 4, 5, 6, 7, 8]⟩ = Except.ok X ∧
      X.shape = [2, 2 * 2] ∧
      X.row 1 = ((⟨[2, 2, 2], [1, 2, 3, 4, 5, 6, 7, 8]⟩ : NDArray).mat 1).flatten ∧
      reshape2 2 2 (X.row 1) = (⟨[2, 2, 2], [1, 2, 3, 4, 5, 6, 7, 8]⟩ : NDArray).mat 1 :=
  claim_C5 2 2 2 2 1 ⟨[2, 2, 2], [1, 2, 3, 4, 5, 6, 7, 8]⟩ rfl rfl (by decide)

/-- C6: on an input array that is not 3-dimensional, `_X` raises the
dimensionality `ValueError`, except when there is exactly one record
(`len(self.files) == 1`), in which case the array is returned unreshaped. -/
theorem claim_C6 (filesLen : ℕ) (g : NDArray) (h : g.shape.length ≠ 3) :
    _X filesLen g = if filesLen = 1 then Except.ok g
      else Except.error (("Dimensionality of input must be 3.").toList) := by
  obtain ⟨shape, data⟩ := g
  rcases shape with _ | ⟨a, _ | ⟨b, _ | ⟨c, _ | ⟨d, tl⟩⟩⟩⟩
  · rfl
  · rfl
  · rfl
  · exact absurd rfl h
  · rfl

theorem claim_C6_witness :
    _X 2 ⟨[4], [1, 2, 3, 4]⟩ =
      Except.error (("Dimensionality of input must be 3.").toList) := by
  have h := claim_C6 2 ⟨[4], [1, 2, 3, 4]⟩ (by decide)
  rw [if_neg (by decide)] at h
  exact h

/-- C7: for a non-empty collection of parsed graphs, `_vertices` computes the
duplicate-free union of all vertex endpoints appearing in any graph, in
strictly ascending order, independently of the order the graphs appear in. -/
theorem claim_C7 (gs : List EdgeList) (_hne : gs ≠ []) :
    (vertices gs).Sorted (· < ·) ∧
    (∀ x, x ∈ vertices gs ↔ ∃ g ∈ gs, ∃ e ∈ g, x = e.1 ∨ x = e.2.1) ∧
    (∀ gs2, gs.Perm gs2 → vertices gs2 = vertices gs) := by
  refine ⟨(sorted_le_vertices gs).lt_of_le (nodup_vertices gs), ?_, ?_⟩
  · intro x
    rw [mem_vertices]
    constructor
    · rintro ⟨g, hg, hx⟩
      exact ⟨g, hg, mem_nxNodes.mp hx⟩
    · rintro ⟨g, hg, hx⟩
      exact ⟨g, hg, mem_nxNodes.mpr hx⟩
  · intro gs2 hperm
    have hmem : ∀ x, x ∈ vertices gs2 ↔ x ∈ vertices gs := by
      intro x
      rw [mem_vertices, mem_vertices]
      constructor
      · rintro ⟨g, hg, hx⟩
        exact ⟨g, hperm.mem_iff.mpr hg, hx⟩
      · rintro ⟨g, hg, hx⟩
        exact ⟨g, hperm.mem_iff.mp hg, hx⟩
    have hp : (vertices gs2).Perm (vertices gs) :=
      (List.perm_ext_iff_of_nodup (nodup_vertices _) (nodup_vertices _)).mpr hmem
    exact List.eq_of_perm_of_sorted hp (sorted_le_vertices _) (sorted_le_vertices _)

theorem claim_C7_witness :
    (vertices [[(1, 2, (1 : ℚ))], [(2, 3, (1 : ℚ))]]).Sorted (· < ·) :=
  (claim_C7 [[(1, 2, (1 : ℚ))], [(2, 3, (1 : ℚ))]] (List.cons_ne_nil _ _)).1

/-- C8 counterexample: the claim compares the CARDINALITY of the vertex set
with the maximum vertex id.  For the single record `[(1, 5, 1)]` the vertex
set is `[1, 5]`, of size 2, while the largest referenced id is 5. -/
theorem claim_C8_counterexample :
    ¬ (listMax (nxNodes [(1, 5, (1 : ℚ))]) ≤ (vertices [[(1, 5, (1 : ℚ))]]).length) := by
  decide

/-- C8 (amended): for every valid (non-empty) batch, the LARGEST ELEMENT of
the computed vertex set is greater than or equal to the maximum vertex id
referenced as an edge endpoint by any single record (every referenced id being
itself a member of the vertex set). -/
theorem claim_C8_amended (gs : List EdgeList) (_hne : gs ≠ [])
    (g : EdgeList) (hg : g ∈ gs) :
    listMax (nxNodes g) ≤ listMax (vertices gs) := by
  apply listMax_le_listMax
  intro x hx
  exact mem_vertices.mpr ⟨g, hg, hx⟩

theorem claim_C8_witness :
    listMax (nxNodes [(1, 5, (1 : ℚ))]) ≤
      listMax (vertices [[(1, 5, (1 : ℚ))], [(2, 3, (1 : ℚ))]]) :=
  claim_C8_amended [[(1, 5, (1 : ℚ))], [(2, 3, (1 : ℚ))]] (List.cons_ne_nil _ _)
    [(1, 5, (1 : ℚ))] (List.mem_cons_self _ _)

/-- C1: for every square dissimilarity matrix and label vector of matching
length, and every sample `i`, `_discr_rdf` splits row `i` into `Dii`
(distances to the other samples sharing label `i`, excluding `i` itself) and
`Dij` (distances to samples with a different label), and row `i` of its
output is, for each `d` in `Dii`, the value
`1 − (count(Dij < d) + 0.5·count(Dij == d)) / |Dij|`. -/
theorem claim_C1 (D : List (List ℚ)) (labels : List ℕ) (i : ℕ)
    (hD : D.length = labels.length) (hi : i < labels.length) :
    (discrRdfRows D labels).getD i [] =
      (specDii (D.getD i []) labels (labels.getD i 0) i).map (fun d =>
        1 - ((countLt (specDij (D.getD i []) labels (labels.getD i 0)) d : ℚ) +
          (1 / 2) * (countEq (specDij (D.getD i []) labels (labels.getD i 0)) d : ℚ)) /
          ((specDij (D.getD i []) labels (labels.getD i 0)).length : ℚ)) := by
  rw [discrRdfRows_getD D labels i hD hi, discrRdfRow_eq_spec]
  rfl

theorem claim_C1_witness :
    (discrRdfRows [[0, 1, 2, 3], [1, 0, 4, 5], [2, 4, 0, 1], [3, 5, 1, 0]]
        [0, 0, 1, 1]).getD 2 [] =
      (specDii ([[0, 1, 2, 3], [1, 0, 4, 5], [2, 4, 0, 1], [3, 5, 1, 0]].getD 2 [])
          [0, 0, 1, 1] ([0, 0, 1, 1].getD 2 0) 2).map (fun d =>
        1 - ((countLt (specDij
            ([[0, 1, 2, 3], [1, 0, 4, 5], [2, 4, 0, 1], [3, 5, 1, 0]].getD 2 [])
            [0, 0, 1, 1] ([0, 0, 1, 1].getD 2 0)) d : ℚ) +
          (1 / 2) * (countEq (specDij
            ([[0, 1, 2, 3], [1, 0, 4, 5], [2, 4, 0, 1], [3, 5, 1, 0]].getD 2 [])
            [0, 0, 1, 1] ([0, 0, 1, 1].getD 2 0)) d : ℚ)) /
          ((specDij ([[0, 1, 2, 3], [1, 0, 4, 5], [2, 4, 0, 1], [3, 5, 1, 0]].getD 2 [])
            [0, 0, 1, 1] ([0, 0, 1, 1].getD 2 0)).length : ℚ)) :=
  claim_C1 [[0, 1, 2, 3], [1, 0, 4, 5], [2, 4, 0, 1], [3, 5, 1, 0]] [0, 0, 1, 1] 2
    rfl (by decide)

/-- C4: whenever the label precondition holds (and the dissimilarity matrix
has one row per retained sample, each of the retained length — the contract of
`euclidean_distances` and of a valid precomputed matrix), `discr_stat` returns
a statistic in `[0, 1]`; and it equals exactly `1` whenever every within-label
distance of every retained sample is strictly smaller than every between-label
distance of that sample. -/
theorem claim_C4 (distf : List (List ℚ) → List (List ℚ)) (euclid : Bool)
    (X : List (List ℚ)) (Y : List ℕ)
    (hpre : 2 ≤ numRepeatedLabels Y)
    (hdim : (dmatrix distf euclid true X Y).length =
      (retainedLabels true Y).length)
    (hrows : ∀ row ∈ dmatrix distf euclid true X Y,
      row.length = (retainedLabels true Y).length) :
    ∃ s, discr_stat distf euclid X Y true = Except.ok s ∧ 0 ≤ s ∧ s ≤ 1 ∧
      ((∀ i, i < (retainedLabels true Y).length →
          ∀ d ∈ specDii ((dmatrix distf euclid true X Y).getD i [])
            (retainedLabels true Y) ((retainedLabels true Y).getD i 0) i,
          ∀ e ∈ specDij ((dmatrix distf euclid true X Y).getD i [])
            (retainedLabels true Y) ((retainedLabels true Y).getD i 0),
          d < e) → s = 1) := by
  have hok : discr_stat distf euclid X Y true = Except.ok
      ((discrRdfRows (dmatrix distf euclid true X Y)
        (retainedLabels true Y)).flatten.sum /
      (((discrRdfRows (dmatrix distf euclid true X Y)
        (retainedLabels true Y)).flatten.length : ℚ))) := by
    unfold discr_stat
    rw [if_neg (by omega), nanmean_padRows]
  obtain ⟨L, hL⟩ := exists_repeated_label Y hpre
  have hcount := count_retained Y L hL
  have hflat_ne := discrRdfRows_flatten_ne_nil (dmatrix distf euclid true X Y)
    (retainedLabels true Y) L hdim hrows hcount
  have hbounds : ∀ x ∈ (discrRdfRows (dmatrix distf euclid true X Y)
      (retainedLabels true Y)).flatten, 0 ≤ x ∧ x ≤ 1 := by
    intro x hx
    obtain ⟨i, hi, d, hd, hval⟩ :=
      mem_flatten_discrRdfRows _ _ hdim hx
    rw [hval]
    exact rdfVal_bounds _ d
  obtain ⟨hs0, hs1⟩ := mean_bounds _ hflat_ne hbounds
  refine ⟨_, hok, hs0, hs1, ?_⟩
  intro hdom
  apply mean_ones _ hflat_ne
  intro x hx
  obtain ⟨i, hi, d, hd, hval⟩ := mem_flatten_discrRdfRows _ _ hdim hx
  rw [hval]
  have hLt : countLt (specDij ((dmatrix distf euclid true X Y).getD i [])
      (retainedLabels true Y) ((retainedLabels true Y).getD i 0)) d = 0 := by
    unfold countLt
    rw [List.countP_eq_zero]
    intro e he
    simp only [decide_eq_true_eq]
    exact lt_asymm (hdom i hi d hd e he)
  have hEq : countEq (specDij ((dmatrix distf euclid true X Y).getD i [])
      (retainedLabels true Y) ((retainedLabels true Y).getD i 0)) d = 0 := by
    unfold countEq
    rw [List.countP_eq_zero]
    intro e he
    simp only [decide_eq_true_eq]
    intro heq
    have hlt := hdom i hi d hd e he
    rw [heq] at hlt
    exact lt_irrefl d hlt
  unfold rdfVal
  rw [hLt, hEq]
  norm_num

theorem claim_C4_witness :
    ∃ s, discr_stat id false
        [[0, 1, 10, 10], [1, 0, 10, 10], [10, 10, 0, 1], [10, 10, 1, 0]]
        [0, 0, 1, 1] true = Except.ok s ∧ 0 ≤ s ∧ s ≤ 1 ∧
      ((∀ i, i < (retainedLabels true [0, 0, 1, 1]).length →
          ∀ d ∈ specDii ((dmatrix id false true
              [[0, 1, 10, 10], [1, 0, 10, 10], [10, 10, 0, 1], [10, 10, 1, 0]]
              [0, 0, 1, 1]).getD i [])
            (retainedLabels true [0, 0, 1, 1])
            ((retainedLabels true [0, 0, 1, 1]).getD i 0) i,
          ∀ e ∈ specDij ((dmatrix id false true
              [[0, 1, 10, 10], [1, 0, 10, 10], [10, 10, 0, 1], [10, 10, 1, 0]]
              [0, 0, 1, 1]).getD i [])
            (retainedLabels true [0, 0, 1, 1])
            ((retainedLabels true [0, 0, 1, 1]).getD i 0),
          d < e) → s = 1) :=
  claim_C4 id false
    [[0, 1, 10, 10], [1, 0, 10, 10], [10, 10, 0, 1], [10, 10, 1, 0]]
    [0, 0, 1, 1] (by decide) (by decide) (by decide)

theorem Heap_read_alloc (h : Heap) (v : Val) (r : ℕ)
    (hr : r < h.cells.length) : ((h.alloc v).1).read r = h.read r := by
  unfold Heap.alloc Heap.read
  exact List.getElem?_append_left hr

theorem Heap_alloc_length (h : Heap) (v : Val) :
    ((h.alloc v).1).cells.length = h.cells.length + 1 := by
  simp [Heap.alloc]

theorem discr_statH_read_preserved (distf : List (List ℚ) → List (List ℚ))
    (euclid : Bool) (h : Heap) (xr yr : ℕ) (ri : Bool) (r : ℕ)
    (hr : r < h.cells.length) :
    ((discr_statH distf euclid h xr yr ri).2).read r = h.read r := by
  unfold discr_statH
  cases hX : h.read xr with
  | none => rfl
  | some vx =>
    cases vx with
    | tensor g => cases hY : h.read yr <;> rfl
    | labels Z => cases hY : h.read yr <;> rfl
    | matrix X =>
      cases hY : h.read yr with
      | none => rfl
      | some vy =>
        cases vy with
        | tensor g => rfl
        | matrix M => rfl
        | labels Y =>
          simp only
          split
          · rfl
          · rw [Heap_read_alloc _ _ r
              (by rw [Heap_alloc_length]; omega), Heap_read_alloc _ _ r hr]

theorem discriminability_read_preserved
    (ptr distf : List (List ℚ) → List (List ℚ)) (h : Heap) (o : Obj)
    (PTR : Bool) (r : ℕ) (hr : r < h.cells.length) :
    ((discriminability ptr distf h o PTR).2).read r = h.read r := by
  unfold discriminability
  cases PTR with
  | false => exact discr_statH_read_preserved distf true h o.XRef o.YRef true r hr
  | true =>
    simp only [if_true]
    cases hG : h.read o.graphsRef with
    | none => rfl
    | some v =>
      cases v with
      | matrix M => rfl
      | labels Y => rfl
      | tensor g =>
        simp only
        rw [discr_statH_read_preserved _ _ _ _ _ _ r
          (by rw [Heap_alloc_length, Heap_alloc_length, Heap_alloc_length]; omega)]
        rw [Heap_read_alloc _ _ r
            (by rw [Heap_alloc_length, Heap_alloc_length]; omega),
          Heap_read_alloc _ _ r (by rw [Heap_alloc_length]; omega),
          Heap_read_alloc _ _ r hr]

/-- C9: the discriminability computation mutates no input.  In the heap model,
`discr_stat` (reading `X` and `Y` from heap cells, allocating fresh cells for
the arrays its body rebinds its locals to) leaves every pre-existing cell
unchanged, and `NdmgStats.discriminability` with `PTR = true` applies the rank
normalization to a fresh copy of `self.graphs`, so the cells holding
`self.graphs`, `self.X` and `self.Y` read identically before and after the
call — for any rank-normalization and distance functions. -/
theorem claim_C9 (ptr distf : List (List ℚ) → List (List ℚ)) (h : Heap)
    (o : Obj) (PTR : Bool)
    (hg : o.graphsRef < h.cells.length) (hx : o.XRef < h.cells.length)
    (hy : o.YRef < h.cells.length) :
    (((discriminability ptr distf h o PTR).2).read o.graphsRef =
        h.read o.graphsRef ∧
      ((discriminability ptr distf h o PTR).2).read o.XRef = h.read o.XRef ∧
      ((discriminability ptr distf h o PTR).2).read o.YRef = h.read o.YRef) ∧
    (∀ (euclid : Bool) (xr yr : ℕ) (ri : Bool) (r : ℕ),
      r < h.cells.length →
      ((discr_statH distf euclid h xr yr ri).2).read r = h.read r) :=
  ⟨⟨discriminability_read_preserved ptr distf h o PTR _ hg,
    discriminability_read_preserved ptr distf h o PTR _ hx,
    discriminability_read_preserved ptr distf h o PTR _ hy⟩,
    fun euclid xr yr ri r hr =>
      discr_statH_read_preserved distf euclid h xr yr ri r hr⟩

theorem claim_C9_witness :
    ((discriminability (fun m => m) (fun m => m)
        ⟨[Val.tensor [[[0]]], Val.matrix [[0]], Val.labels [0, 0, 1, 1]]⟩
        ⟨0, 1, 2⟩ true).2).read 0 =
      Heap.read ⟨[Val.tensor [[[0]]], Val.matrix [[0]], Val.labels [0, 0, 1, 1]]⟩ 0 :=
  ((claim_C9 (fun m => m) (fun m => m)
    ⟨[Val.tensor [[[0]]], Val.matrix [[0]], Val.labels [0, 0, 1, 1]]⟩
    ⟨0, 1, 2⟩ true (by decide) (by decide) (by decide)).1).1

theorem is_graph_keywords_mono (ks : List (List Char)) (f a s : List Char) :
    ∀ k ∈ ks, k ∈ (is_graph ks f a s).2 := by
  intro k hk
  show k ∈ (if a.isEmpty then ks else ks ++ [lowerStr a])
  split
  · exact hk
  · exact List.mem_append_left _ hk

theorem is_graph_accept_contains (ks : List (List Char)) (f a s k : List Char)
    (hk : k ∈ ks) (hacc : (is_graph ks f a s).1 = true) :
    containsSub k f = true := by
  have hacc2 : ((pathSuffixOf f ==
      (if !s.isEmpty && !isPre ['.'] s then '.' :: s else s)) &&
      ((if a.isEmpty then ks else ks ++ [lowerStr a]).all
        (fun kk => containsSub kk f))) = true := hacc
  rw [Bool.and_eq_true] at hacc2
  have hall := hacc2.2
  rw [List.all_eq_true] at hall
  apply hall
  split
  · exact hk
  · exact List.mem_append_left _ hk

theorem filter_graph_files_accept_contains (k : List Char) :
    ∀ (files : List (List Char)) (ks : List (List Char)) (a s f : List Char),
      k ∈ ks → f ∈ (filter_graph_files ks files a s).1 →
      containsSub k f = true := by
  intro files
  induction files with
  | nil =>
    intro ks a s f _ hf
    simp [filter_graph_files] at hf
  | cons g rest ih =>
    intro ks a s f hk hf
    simp only [filter_graph_files] at hf
    by_cases hb : (is_graph ks g a s).1 = true
    · rw [if_pos hb] at hf
      rcases List.mem_cons.mp hf with rfl | htail
      · exact is_graph_accept_contains ks f a s k hk hb
      · exact ih ((is_graph ks g a s).2) a s f
          (is_graph_keywords_mono ks g a s k hk) htail
    · rw [if_neg hb] at hf
      exact ih ((is_graph ks g a s).2) a s f
        (is_graph_keywords_mono ks g a s k hk) hf

/-- C10: calling `is_graph` with a non-empty `atlas` appends the lower-cased
atlas to the module-level `KEYWORDS` list and never removes it, so every
subsequent `is_graph` or `filter_graph_files` call — with any atlas argument —
accepts only filenames containing that earlier atlas string; and two calls
with identical arguments can return different results depending on call
history (witnessed by `"sub-1_ses-1"` before and after an `atlas="desikan"`
call). -/
theorem claim_C10 (ks : List (List Char)) (f a s : List Char) (ha : a ≠ []) :
    (is_graph ks f a s).2 = ks ++ [lowerStr a] ∧
    (∀ k ∈ ks, k ∈ (is_graph ks f a s).2) ∧
    (∀ ks2 f2 a2 s2, lowerStr a ∈ ks2 → (is_graph ks2 f2 a2 s2).1 = true →
      containsSub (lowerStr a) f2 = true) ∧
    (∀ ks2 files a2 s2 f2, lowerStr a ∈ ks2 →
      f2 ∈ (filter_graph_files ks2 files a2 s2).1 →
      containsSub (lowerStr a) f2 = true) ∧
    ((is_graph KEYWORDS (("sub-1_ses-1").toList) [] []).1 = true ∧
      (is_graph (KEYWORDS ++ [lowerStr (("desikan").toList)])
        (("sub-1_ses-1").toList) [] []).1 = false) := by
  have hA : a.isEmpty = false := by
    cases a with
    | nil => exact absurd rfl ha
    | cons c t => rfl
  refine ⟨?_, is_graph_keywords_mono ks f a s, ?_, ?_, by decide, by decide⟩
  · show (if a.isEmpty then ks else ks ++ [lowerStr a]) = ks ++ [lowerStr a]
    rw [hA]
    rfl
  · intro ks2 f2 a2 s2 hmem hacc
    exact is_graph_accept_contains ks2 f2 a2 s2 (lowerStr a) hmem hacc
  · intro ks2 files a2 s2 f2 hmem hf2
    exact filter_graph_files_accept_contains (lowerStr a) files ks2 a2 s2 f2
      hmem hf2

theorem claim_C10_witness :
    containsSub (lowerStr (("desikan").toList)) (("x_desikan_y").toList) = true :=
  (claim_C10 KEYWORDS (("sub-1_ses-1").toList) (("desikan").toList) []
      (by decide)).2.2.1
    [lowerStr (("desikan").toList)] (("x_desikan_y").toList) [] []
    (List.mem_cons_self _ _) (by decide)

end Graphutils
